import Mathlib

/-!
Verification of the pull-request review tool (`main.py`).

The development shallowly embeds the program's pure logic as executable Lean
definitions and proves the specified properties about them:

* `line_start_patch` — the Patch Parser (hunk-header parsing, `main.py` 46-48);
* `fnmatch`, `files_for_review` — the Change Selector (`main.py` 51-62);
* `code_type`, `prompt` — the Prompt Builder (`main.py` 9-43);
* `review`, `gather`, `main_run` — the Orchestrator's comment-building loop
  and its effect trace (`main.py` 65-76, 122-156);
* `handle_replies` — the Reply Handler (`main.py` 78-119).

Python exceptions are modelled with `Option` (a raised error is `none`);
external collaborators (file-content fetch, the completion service) are
modelled as function parameters; network effects are modelled as explicit
event lists returned alongside the computed values.
-/

namespace PrReview

/-! ### Patch Parser (`line_start_patch`, `main.py` 46-48)

The Python code runs `re.search(r"^@@ [-+](\d*),", patch)` and returns
`int(match.group(1))`.  The anchored pattern matches exactly when the string
starts with `"@@ "`, then a `-` or `+`, then a (possibly empty) maximal run
of decimal digits, then a comma.  A failed match raises `AttributeError`
(`match` is `None`); an empty digit group raises `ValueError` in `int("")`.
Both failure modes are modelled as `none`. -/

/-- Models Python `int(...)` applied to the regex group: the group consists of
decimal digits only, and `int("")` raises (`none`). -/
def intOfDigits (ds : List Char) : Option Nat :=
  if ds.isEmpty then none
  else some (ds.foldl (fun n c => 10 * n + (c.toNat - 48)) 0)

/-- The Patch Parser: extracts the starting line number from a unified-diff
hunk header (`main.py` 46-48); `none` models a raised exception.  The regex
matches exactly when the string starts with `'@'`, `'@'`, `' '`, a sign
`'-'`/`'+'`, and then its maximal (possibly empty) run of decimal digits is
followed by a comma; the group handed to `int` is that digit run. -/
def line_start_patch (patch : String) : Option Nat :=
  match patch.data with
  | a :: b :: sp :: sign :: rest =>
    if (a = '@' ∧ b = '@' ∧ sp = ' ' ∧ (sign = '-' ∨ sign = '+'))
        ∧ (rest.dropWhile Char.isDigit).head? = some ',' then
      intOfDigits (rest.takeWhile Char.isDigit)
    else none
  | _ => none

/-- The hunk-header pattern as the spec words it: the string begins with
`@@ -<n>,` or `@@ +<n>,` where `<n>` is a non-empty sequence of decimal
digits. -/
def hunk_header_ok (s : String) : Bool :=
  match s.data with
  | a :: b :: sp :: sign :: rest =>
    decide ((a = '@' ∧ b = '@' ∧ sp = ' ' ∧ (sign = '-' ∨ sign = '+'))
        ∧ (rest.dropWhile Char.isDigit).head? = some ','
        ∧ rest.takeWhile Char.isDigit ≠ [])
  | _ => false

/-! ### Glob matching (`fnmatch.fnmatch`)

`files_for_review` tests filenames against user-supplied UNIX glob patterns
with Python's `fnmatch.fnmatch`.  The model below implements glob matching
for patterns built from literal characters, `?` (any one character) and `*`
(any, possibly empty, sequence of characters); bracket character classes are
not modelled.  It recurses on the pattern with explicit fuel (one unit per
pattern character) so that the definition is structural and computes by
`decide`/`rfl`. -/

def globGo : Nat → List Char → List Char → Bool
  | 0, _, _ => false
  | _ + 1, [], name => name.isEmpty
  | fuel + 1, '*' :: pr, name => name.tails.any (fun t => globGo fuel pr t)
  | fuel + 1, c :: pr, name =>
    match name with
    | [] => false
    | x :: xs => (c == '?' || c == x) && globGo fuel pr xs

/-- Models `fnmatch.fnmatch(name, pattern)` (case-sensitive host). -/
def fnmatch (name pattern : String) : Bool :=
  globGo (pattern.length + 1) pattern.data name.data

/-! ### Prompt Builder (`code_type` and `prompt`, `main.py` 9-43) -/

/-- Splits a character list at its last `'.'`: returns
`some (before, after)` where `after` is the (dot-free) suffix following the
last dot, or `none` when no dot occurs. -/
def extSplit : List Char → Option (List Char × List Char)
  | [] => none
  | c :: rest =>
    match extSplit rest with
    | some (pre, post) => some (c :: pre, post)
    | none => if c == '.' then some ([], rest) else none

/-- The Prompt Builder's language detection (`main.py` 9-22).  The Python code
runs `re.search(r"^.*\.([^.]*)$", filename)`: since `^` anchors at the start,
`.` does not match a newline and `[^.]*` extends greedily to the end of the
string, the regex matches exactly when the filename contains a `'.'` with no
newline anywhere before the last `'.'`, and group 1 is then the suffix after
the last dot.  The match statement maps the five known extensions to language
names and falls through to `None` otherwise. -/
def code_type (filename : String) : Option String :=
  match extSplit filename.data with
  | none => none
  | some (pre, post) =>
    if pre.contains '\n' then none
    else
      let ext := String.mk post
      if ext = "js" then some "JavaScript"
      else if ext = "ts" then some "TypeScript"
      else if ext = "java" then some "Java"
      else if ext = "py" then some "Python"
      else if ext = "sh" then some "Bash"
      else none

/-- The label placed in the prompt (`main.py` 26-29): `"<language> code"`
when a language was detected, bare `"code"` otherwise. -/
def code_label (filename : String) : String :=
  match code_type filename with
  | some t => t ++ " code"
  | none => "code"

/-- The fixed tail of the review prompt following the label
(`main.py` 31-43). -/
def promptRest (contents : String) : String :=
  "Provide answers to the following questions in numbered lists\n" ++
  "   - does the code below has obvious bugs?\n" ++
  "   - are there any security issues in the code?\n" ++
  "   - how do you assess the readability of the code?\n" ++
  "   - are there any code duplication in the provided code?\n" ++
  "   - are variable names descriptive enough?\n" ++
  "   - is the code well documented?\n" ++
  "   - can you identify possible performance improvements for this code?\n" ++
  "At the end of your answer, please summarize and explain what changes should be performed in the " ++
  "provided code to improve its quality\n" ++
  "If a question doesn\x27t have a new suggestion omit it from your answer." ++
  "```\n" ++ contents ++ "\n```"

/-- The Prompt Builder (`main.py` 25-43). -/
def prompt (filename contents : String) : String :=
  "Please evaluate the  " ++ code_label filename ++ " below.\n" ++ promptRest contents

/-- The label the spec prescribes, written from the spec's words alone:
the case-sensitive suffix after the last `.` is mapped over
`js`/`ts`/`java`/`py`/`sh`, and any other or missing extension yields the
bare label `"code"`. -/
def spec_label (filename : String) : String :=
  match extSplit filename.data with
  | none => "code"
  | some pr =>
    let ext := String.mk pr.2
    if ext = "js" then "JavaScript code"
    else if ext = "ts" then "TypeScript code"
    else if ext = "java" then "Java code"
    else if ext = "py" then "Python code"
    else if ext = "sh" then "Bash code"
    else "code"

/-- Holds when a newline character occurs before the last `.` of the
filename (the situation in which the Python regex fails to match although
the filename does have an extension). -/
def newline_before_ext (fn : String) : Bool :=
  match extSplit fn.data with
  | some pr => pr.1.contains '\n'
  | none => false

/-! ### Change Selector (`files_for_review`, `main.py` 51-62)

PyGithub objects are modelled by their fields the program reads: a changed
file carries `filename`, `status` and `patch`; a commit carries `sha` and
its list of changed `files`; a pull request is the list of commits in the
order the host reports them.  The accumulating Python `dict` (which iterates
in insertion order) is modelled as an association list extended at the right
end, and a raised exception from `line_start_patch` as `none`. -/

/-- One entry of `commit.files`: the fields of a PyGithub `File` read by the
program. -/
structure ChangedFile where
  filename : String
  status : String
  patch : String
deriving DecidableEq

/-- The fields of a PyGithub `Commit` read by the program. -/
structure Commit where
  sha : String
  files : List ChangedFile
deriving DecidableEq

/-- The accumulating `changes` dict: filename ↦ (parsed line, commit), in
insertion order. -/
abbrev Changes := List (String × Nat × Commit)

/-- The body of the selector's inner loop for one changed file
(`main.py` 55-60): skip `"unchanged"`/`"removed"` files, then record the
file under the first matching pattern unless its name was already recorded.
`none` models the exception propagating out of `line_start_patch`. -/
def stepFile (patterns : List String) (commit : Commit) (changes : Changes)
    (file : ChangedFile) : Option Changes :=
  if file.status == "unchanged" || file.status == "removed" then some changes
  else if patterns.any (fun pat => fnmatch file.filename pat)
      && (changes.lookup file.filename).isNone then
    match line_start_patch file.patch with
    | some l => some (changes ++ [(file.filename, l, commit)])
    | none => none
  else some changes

/-- The Change Selector (`main.py` 51-62).  Returns the recorded triples in
insertion order with the line clamped to a minimum of 1, or `none` when a
matched file's patch fails to parse. -/
def files_for_review (commits : List Commit) (patterns : List String) :
    Option (List (String × Nat × Commit)) := do
  let changes ← commits.foldlM
    (fun ch c => c.files.foldlM (stepFile patterns c) ch) ([] : Changes)
  return changes.map (fun x => (x.1, max 1 x.2.1, x.2.2))

/-- The selector's iteration order: all (commit, changed file) pairs, commits
in host order, files in per-commit order. -/
def fileSeq (commits : List Commit) : List (Commit × ChangedFile) :=
  commits.flatMap (fun c => c.files.map (fun f => (c, f)))

/-- A (commit, file) pair qualifies for filename `fn`: it changes `fn` with a
status other than `"unchanged"`/`"removed"` and `fn` matches some supplied
pattern. -/
def qualifies (patterns : List String) (fn : String)
    (p : Commit × ChangedFile) : Bool :=
  p.2.filename == fn
    && !(p.2.status == "unchanged" || p.2.status == "removed")
    && patterns.any (fun pat => fnmatch p.2.filename pat)

/-- The loop invariant of the Change Selector: after processing the
(commit, file) pairs `pre`, the accumulated `ch` has pairwise-distinct
filenames; every entry is attributed to the first qualifying pair of `pre`
and carries that pair's parsed patch line; filenames without an entry have
no qualifying pair in `pre` yet; and entries are ordered by the position of
their first qualifying pair. -/
structure SelInv (patterns : List String) (pre : List (Commit × ChangedFile))
    (ch : Changes) : Prop where
  nodup : (ch.map (fun e => e.1)).Nodup
  attrib : ∀ e ∈ ch, ∃ f : ChangedFile,
    pre.find? (qualifies patterns e.1) = some (e.2.2, f)
      ∧ line_start_patch f.patch = some e.2.1
  fresh : ∀ fn : String, ch.lookup fn = none →
    pre.find? (qualifies patterns fn) = none
  order : ch.Pairwise (fun a b =>
    pre.findIdx (qualifies patterns a.1) < pre.findIdx (qualifies patterns b.1))

/-- Example commit: first commit touching `a.py` (for concrete witnesses). -/
def exCommitA : Commit := ⟨"c1", [⟨"a.py", "modified", "@@ -3,7 +3,9 @@"⟩]⟩

/-- Example commit: second commit touching `a.py` again. -/
def exCommitB : Commit := ⟨"c2", [⟨"a.py", "modified", "@@ -8,7 +8,9 @@"⟩]⟩

/-- Example commit: adds `app.ts` with hunk header starting at line 0. -/
def exCommitTs : Commit := ⟨"c1", [⟨"app.ts", "added", "@@ -0,0 +1,10 @@"⟩]⟩

/-- Example commit: a removed `a.py` file. -/
def exCommitRm : Commit := ⟨"c1", [⟨"a.py", "removed", "@@ -3,7 +3,9 @@"⟩]⟩

/-- Example commit: touches `a.py` then `b.py` in one commit. -/
def exCommitTwo : Commit :=
  ⟨"c1", [⟨"a.py", "modified", "@@ -3,7 +3,9 @@"⟩,
          ⟨"b.py", "modified", "@@ -5,7 +5,9 @@"⟩]⟩

/-! ### Review Requester and Orchestrator (`review` and `main`, `main.py`
65-76 and 122-156)

The completion service is modelled by a function `chat : String → String`
from prompt to returned message text, and file-content retrieval by
`contents : String → String → String` from (path, commit sha) to decoded
content.  The orchestrator's observable network activity is modelled as an
explicit event trace. -/

/-- A review comment as built by the orchestrator (`main.py` 149-152). -/
structure ReviewCmt where
  path : String
  line : Nat
  body : String
deriving DecidableEq

/-- The Review Requester (`main.py` 65-76): one chat completion on the built
prompt, wrapped in the fixed header. -/
def review (filename content : String) (chat : String → String) : String :=
  "*ChatGPT review for " ++ filename ++ ":*\n" ++ chat (prompt filename content)

/-- One observable side effect of the orchestrator. -/
inductive MainEvent where
  | fetchContent (path sha : String)
  | chatCall (path : String) (promptText : String)
  | replyHandling
  | createReview (body : String) (event : String) (comments : List ReviewCmt)
deriving DecidableEq

/-- The orchestrator's comment-building loop (`main.py` 144-152): fetch each
selected file's content at its attributing commit, silently skip empty
content, and otherwise build a review comment (issuing one completion call).
Returns the built comments and the events so far. -/
def gather (contents : String → String → String) (chat : String → String)
    (records : List (String × Nat × Commit)) : List ReviewCmt × List MainEvent :=
  records.foldl
    (fun acc r =>
      let content := contents r.1 r.2.2.sha
      if content.length = 0 then
        (acc.1, acc.2 ++ [MainEvent.fetchContent r.1 r.2.2.sha])
      else
        (acc.1 ++ [⟨r.1, r.2.1, review r.1 content chat⟩],
         acc.2 ++ [MainEvent.fetchContent r.1 r.2.2.sha,
                   MainEvent.chatCall r.1 (prompt r.1 content)]))
    ([], [])

/-- The comment built for one selected record, `none` when the fetched
content is empty and the record is skipped (`main.py` 145-152). -/
def commentFor (contents : String → String → String) (chat : String → String)
    (r : String × Nat × Commit) : Option ReviewCmt :=
  let content := contents r.1 r.2.2.sha
  if content.length = 0 then none
  else some ⟨r.1, r.2.1, review r.1 content chat⟩

/-- The events issued while processing one selected record. -/
def eventsFor (contents : String → String → String) (_chat : String → String)
    (r : String × Nat × Commit) : List MainEvent :=
  let content := contents r.1 r.2.2.sha
  if content.length = 0 then [MainEvent.fetchContent r.1 r.2.2.sha]
  else [MainEvent.fetchContent r.1 r.2.2.sha,
        MainEvent.chatCall r.1 (prompt r.1 content)]

/-- The Orchestrator (`main.py` 122-156) as an event trace: select the files,
build the comments, and, only when at least one comment was produced, run the
reply handler and then submit one review with the fixed title and the
`"COMMENT"` event.  `none` models an uncaught exception aborting the run. -/
def main_run (contents : String → String → String) (chat : String → String)
    (commits : List Commit) (patterns : List String) : Option (List MainEvent) := do
  let records ← files_for_review commits patterns
  let (comments, evs) := gather contents chat records
  if comments.length > 0 then
    return evs ++ [MainEvent.replyHandling,
                   MainEvent.createReview "**ChatGPT code review**" "COMMENT" comments]
  else
    return evs

/-! ### Reply Handler (`handle_replies`, `main.py` 78-119)

A comment carries the fields the program reads.  The legacy completion
endpoint is modelled by `completion : String → String`.  The handler's
observable activity is returned as two lists: the completion calls issued
(target reply id, prompt sent) and the replies posted (target reply id,
posted body). -/

/-- The fields of a pull-request comment read by `handle_replies`. -/
structure IssueCmt where
  id : Nat
  login : String
  body : String
  reply_to_id : Option Nat
  original_commit_id : String
  path : String
  original_position : Nat
  diff_hunk : String
deriving DecidableEq

/-- The automation identity (`main.py` 88). -/
def botLogin : String := "github-actions[bot]"

/-- The prompt built for an unanswered human reply (`main.py` 103). -/
def replyPrompt (r : IssueCmt) : String :=
  r.body ++ "\n\n" ++ r.original_commit_id ++ ":\n" ++ r.path ++ " line "
    ++ toString r.original_position ++ "\n```" ++ r.diff_hunk ++ "```"

/-- The Reply Handler (`main.py` 87-116).  For each bot-authored comment it
collects the non-bot replies to it; a reply that already has a bot-authored
reply is skipped, and every other one triggers one completion call and one
posted reply.  Returns `(calls, posts)`: the issued completion calls and the
posted replies, each tagged with the id of the reply being answered. -/
def handle_replies (completion : String → String) (comments : List IssueCmt) :
    List (Nat × String) × List (Nat × String) :=
  comments.foldl
    (fun acc c =>
      if c.login == botLogin then
        (comments.filter
            (fun r => r.reply_to_id == some c.id && !(r.login == botLogin))).foldl
          (fun acc r =>
            if !(comments.filter
                (fun br => br.reply_to_id == some r.id && br.login == botLogin)).isEmpty
            then acc
            else (acc.1 ++ [(r.id, replyPrompt r)],
                  acc.2 ++ [(r.id, completion (replyPrompt r))]))
          acc
      else acc)
    ([], [])

/-- The filter for human replies to the bot comment `c` (`main.py` 90). -/
def humanReplyTo (c r : IssueCmt) : Bool :=
  r.reply_to_id == some c.id && !(r.login == botLogin)

/-- Holds when no bot-authored reply to `r` exists yet (`main.py` 94-97). -/
def unhandled (comments : List IssueCmt) (r : IssueCmt) : Bool :=
  (comments.filter
    (fun br => br.reply_to_id == some r.id && br.login == botLogin)).isEmpty

/-- The replies the handler answers, in processing order: for each
bot-authored comment, its non-bot replies, keeping those not yet answered by
the bot. -/
def workList (comments : List IssueCmt) : List IssueCmt :=
  ((comments.filter (fun x => x.login == botLogin)).flatMap
    (fun c => comments.filter (humanReplyTo c))).filter (unhandled comments)

/-! ### Concrete fixtures used by the witnesses -/

/-- Example content store: every file fetches to `"content"`. -/
def exContents : String → String → String := fun _ _ => "content"

/-- Example content store: every file fetches to the empty string. -/
def exContentsEmpty : String → String → String := fun _ _ => ""

/-- Example chat completion service. -/
def exChat : String → String := fun _ => "review text"

/-- Example legacy completion service. -/
def exCompletion : String → String := fun _ => "answer"

/-- Example bot-authored review comment. -/
def exBotComment : IssueCmt :=
  ⟨1, "github-actions[bot]", "review A", none, "sha1", "a.py", 3, "hunk"⟩

/-- Example human reply to `exBotComment`. -/
def exHumanReply : IssueCmt :=
  ⟨2, "alice", "why is this wrong?", some 1, "sha1", "a.py", 3, "hunk"⟩

/-- Example bot-authored answer to `exHumanReply`. -/
def exBotReply : IssueCmt :=
  ⟨3, "github-actions[bot]", "because", some 2, "sha1", "a.py", 3, "hunk"⟩

/-- Example trace of a run of the orchestrator over `exCommitA` in which one
comment is produced. -/
def exTrace : List MainEvent :=
  (gather exContents exChat [("a.py", 3, exCommitA)]).2
    ++ [MainEvent.replyHandling,
        MainEvent.createReview "**ChatGPT code review**" "COMMENT"
          (gather exContents exChat [("a.py", 3, exCommitA)]).1]

/-! ## Theorems -/

/-- Folding decimal digits left-to-right (as Python `int` does on the digit
string) computes the base-10 value of the digit sequence, expressed through
Mathlib's `Nat.ofDigits` (least-significant digit first). -/
lemma foldl_digits (ds : List Char) (a : Nat) :
    ds.foldl (fun n c => 10 * n + (c.toNat - 48)) a
      = a * 10 ^ ds.length
          + Nat.ofDigits 10 ((ds.map (fun c => c.toNat - 48)).reverse) := by
  induction ds generalizing a with
  | nil => simp [Nat.ofDigits]
  | cons c t ih =>
    simp only [List.foldl_cons, List.map_cons, List.reverse_cons, List.length_cons]
    rw [ih, Nat.ofDigits_append]
    simp [Nat.ofDigits]
    ring

/-- C2: for every hunk-header string that begins with `@@ -<n>,` or
`@@ +<n>,`, where `<n>` is a non-empty sequence of decimal digits `ds`, the
Patch Parser returns exactly the integer denoted by `ds` (its base-10 value,
`Nat.ofDigits 10` of the digit values least-significant first). -/
theorem patch_parser_returns_n (sign : Char) (ds tail : List Char)
    (hsign : sign = '-' ∨ sign = '+') (hne : ds ≠ [])
    (hdig : ∀ c ∈ ds, c.isDigit = true) :
    line_start_patch (String.mk ('@' :: '@' :: ' ' :: sign :: (ds ++ ',' :: tail)))
      = some (Nat.ofDigits 10 ((ds.map (fun c => c.toNat - 48)).reverse)) := by
  have hdrop : (ds ++ ',' :: tail).dropWhile Char.isDigit = ',' :: tail := by
    rw [List.dropWhile_append_of_pos hdig, List.dropWhile_cons]
    simp
  have htake : (ds ++ ',' :: tail).takeWhile Char.isDigit = ds := by
    rw [List.takeWhile_append_of_pos hdig, List.takeWhile_cons]
    simp
  show (if _ ∧ ((ds ++ ',' :: tail).dropWhile Char.isDigit).head? = some ','
        then intOfDigits ((ds ++ ',' :: tail).takeWhile Char.isDigit) else none) = _
  rw [hdrop, htake, if_pos ⟨⟨rfl, rfl, rfl, hsign⟩, rfl⟩, intOfDigits,
    if_neg (by simpa using hne)]
  rw [foldl_digits]
  simp

/-- Witness for C2 on the header `@@ -15,7 +15,9 @@ def foo`. -/
theorem patch_parser_returns_n_witness :
    line_start_patch
        (String.mk ('@' :: '@' :: ' ' :: '-' :: (['1', '5'] ++ ',' :: "7 +15,9 @@ def foo".data)))
      = some 15 := by
  have h := patch_parser_returns_n '-' ['1', '5'] "7 +15,9 @@ def foo".data
    (Or.inl rfl) (by decide) (by decide)
  rw [h]
  decide

/-- C3: on any input that does not match the leading hunk-header pattern
`@@ -<n>,` / `@@ +<n>,` (with `<n>` a non-empty digit sequence), the Patch
Parser fails (`none`, modelling the raised exception) instead of returning a
default value. -/
theorem patch_parser_fails_without_match (s : String)
    (h : hunk_header_ok s = false) : line_start_patch s = none := by
  obtain ⟨l⟩ := s
  match l with
  | [] => rfl
  | [_] => rfl
  | [_, _] => rfl
  | [_, _, _] => rfl
  | a :: b :: sp :: sign :: rest =>
    have h' : ¬ ((a = '@' ∧ b = '@' ∧ sp = ' ' ∧ (sign = '-' ∨ sign = '+'))
        ∧ (rest.dropWhile Char.isDigit).head? = some ','
        ∧ rest.takeWhile Char.isDigit ≠ []) := by
      simpa [hunk_header_ok] using h
    show (if _ then intOfDigits (rest.takeWhile Char.isDigit) else none) = none
    by_cases hc : (a = '@' ∧ b = '@' ∧ sp = ' ' ∧ (sign = '-' ∨ sign = '+'))
        ∧ (rest.dropWhile Char.isDigit).head? = some ','
    · have hempty : rest.takeWhile Char.isDigit = [] := by
        by_contra hne
        exact h' ⟨hc.1, hc.2, hne⟩
      rw [if_pos hc, intOfDigits, hempty]
      simp
    · exact if_neg hc

/-- Witness for C3 on the non-matching input `@@ x`. -/
theorem patch_parser_fails_without_match_witness :
    hunk_header_ok "@@ x" = false ∧ line_start_patch "@@ x" = none :=
  ⟨by decide, patch_parser_fails_without_match "@@ x" (by decide)⟩

/-- Counterexample to C6 as stated: for the filename `"a\nb.py"` the suffix
after the last `.` is `py`, so the claim prescribes the label
`"Python code"`, but the code's anchored regex `^.*\.([^.]*)$` does not
match (a newline precedes the last dot), so the prompt carries the bare
label `"code"`. -/
theorem prompt_label_newline_counterexample :
    prompt "a\nb.py" "x"
      ≠ "Please evaluate the  " ++ spec_label "a\nb.py" ++ " below.\n"
          ++ promptRest "x" := by decide

/-- C6 as amended, for every filename: when no newline character precedes
the last `.`, the prompt labels the code block by the case-sensitive suffix
after the last `.` (`js`/`ts`/`java`/`py`/`sh` give the language labels, any
other or missing extension gives the bare label `"code"`); when a newline
does precede the last `.`, the prompt carries the bare label `"code"`. -/
theorem prompt_label_by_extension (fn c : String) :
    prompt fn c
      = "Please evaluate the  "
          ++ (if newline_before_ext fn = true then "code" else spec_label fn)
          ++ " below.\n" ++ promptRest c := by
  have hlabel : code_label fn
      = (if newline_before_ext fn = true then "code" else spec_label fn) := by
    cases hnl : newline_before_ext fn with
    | false =>
      rw [if_neg (by simp)]
      unfold newline_before_ext at hnl
      unfold code_label code_type spec_label
      cases hsplit : extSplit fn.data with
      | none => simp
      | some pr =>
        obtain ⟨pre, post⟩ := pr
        rw [hsplit] at hnl
        simp at hnl
        have hb : pre.contains '\n' = false := by simpa using hnl
        simp only [hb, Bool.false_eq_true, if_false]
        split_ifs <;> rfl
    | true =>
      rw [if_pos rfl]
      unfold newline_before_ext at hnl
      unfold code_label code_type
      cases hsplit : extSplit fn.data with
      | none => simp
      | some pr =>
        obtain ⟨pre, post⟩ := pr
        rw [hsplit] at hnl
        simp at hnl
        simp [hnl]
  rw [prompt, hlabel]

/-- Witness for the amended C6: the prompt for `foo.py` carries the label
`"Python code"`, and the prompt for `"a\nb.py"` (newline before the last
dot) carries the bare label `"code"`. -/
theorem prompt_label_by_extension_witness :
    (prompt "foo.py" "x"
        = "Please evaluate the  "
            ++ (if newline_before_ext "foo.py" = true then "code"
                else spec_label "foo.py")
            ++ " below.\n" ++ promptRest "x"
      ∧ spec_label "foo.py" = "Python code"
      ∧ newline_before_ext "foo.py" = false)
    ∧ (prompt "a\nb.py" "x"
        = "Please evaluate the  "
            ++ (if newline_before_ext "a\nb.py" = true then "code"
                else spec_label "a\nb.py")
            ++ " below.\n" ++ promptRest "x"
      ∧ newline_before_ext "a\nb.py" = true) :=
  ⟨⟨prompt_label_by_extension "foo.py" "x", by decide, by decide⟩,
   ⟨prompt_label_by_extension "a\nb.py" "x", by decide⟩⟩

/-! ### Change Selector invariant lemmas -/

/-- Absence in the accumulating dict is absence of the key. -/
lemma lookup_none_iff (fn : String) (ch : Changes) :
    ch.lookup fn = none ↔ fn ∉ ch.map (fun e => e.1) := by
  rw [List.lookup_eq_none_iff]
  constructor
  · intro h hmem
    obtain ⟨e, he, heq⟩ := List.mem_map.mp hmem
    have hne := h e he
    rw [bne_iff_ne] at hne
    exact hne heq.symm
  · intro h e he
    rw [bne_iff_ne]
    intro heq
    exact h (List.mem_map.mpr ⟨e, he, heq.symm⟩)

/-- A skipped or already-recorded status makes no pair qualify. -/
lemma qualifies_false_of_status {f : ChangedFile} {c : Commit}
    (patterns : List String) (fn : String)
    (hstatus : (f.status == "unchanged" || f.status == "removed") = true) :
    qualifies patterns fn (c, f) = false := by
  unfold qualifies
  simp [hstatus]

/-- A pair for a different filename never qualifies. -/
lemma qualifies_false_of_ne {f : ChangedFile} {c : Commit}
    (patterns : List String) {fn : String} (hne : f.filename ≠ fn) :
    qualifies patterns fn (c, f) = false := by
  unfold qualifies
  simp [hne]

/-- Attributions recorded in the invariant are stable when the processed
prefix grows. -/
lemma find?_stable {patterns pre ch} (inv : SelInv patterns pre ch)
    (x : Commit × ChangedFile) {e} (he : e ∈ ch) :
    ∃ f : ChangedFile,
      (pre ++ [x]).find? (qualifies patterns e.1) = some (e.2.2, f)
        ∧ line_start_patch f.patch = some e.2.1 := by
  obtain ⟨f, hf, hl⟩ := inv.attrib e he
  exact ⟨f, by simp [List.find?_append, hf], hl⟩

/-- First-qualifying positions recorded in the invariant are stable when the
processed prefix grows. -/
lemma findIdx_stable {patterns pre ch} (inv : SelInv patterns pre ch)
    (x : Commit × ChangedFile) {e} (he : e ∈ ch) :
    (pre ++ [x]).findIdx (qualifies patterns e.1)
      = pre.findIdx (qualifies patterns e.1) := by
  obtain ⟨f, hf, _⟩ := inv.attrib e he
  have hex : ∃ y ∈ pre, qualifies patterns e.1 y :=
    ⟨(e.2.2, f), List.mem_of_find?_eq_some hf, List.find?_some hf⟩
  have hlt := List.findIdx_lt_length_of_exists hex
  rw [List.findIdx_append, if_pos hlt]

/-- The invariant survives one step of the selector's inner loop. -/
lemma stepFile_inv {patterns : List String} {pre : List (Commit × ChangedFile)}
    {ch ch' : Changes} {c : Commit} {f : ChangedFile}
    (inv : SelInv patterns pre ch)
    (h : stepFile patterns c ch f = some ch') :
    SelInv patterns (pre ++ [(c, f)]) ch' := by
  unfold stepFile at h
  by_cases hstatus : (f.status == "unchanged" || f.status == "removed") = true
  · rw [if_pos hstatus] at h
    obtain rfl : ch = ch' := Option.some.inj h
    refine ⟨inv.nodup, fun e he => find?_stable inv _ he, ?_, ?_⟩
    · intro fn hfn
      have hpre := inv.fresh fn hfn
      simp [List.find?_append, hpre, qualifies_false_of_status patterns fn hstatus]
    · exact inv.order.imp_of_mem
        (fun ha hb hr => by rwa [findIdx_stable inv _ ha, findIdx_stable inv _ hb])
  · rw [if_neg hstatus] at h
    by_cases hguard : (patterns.any (fun pat => fnmatch f.filename pat)
        && (ch.lookup f.filename).isNone) = true
    · rw [if_pos hguard] at h
      obtain ⟨hany, hnone⟩ := Bool.and_eq_true_iff.mp hguard
      have hlook : ch.lookup f.filename = none := Option.isNone_iff_eq_none.mp hnone
      have hkey : f.filename ∉ ch.map (fun e => e.1) := (lookup_none_iff _ _).mp hlook
      have hfindpre : pre.find? (qualifies patterns f.filename) = none :=
        inv.fresh f.filename hlook
      have hq : qualifies patterns f.filename (c, f) = true := by
        unfold qualifies
        simp only [Bool.not_eq_true] at hstatus
        simp [hstatus, hany]
      cases hparse : line_start_patch f.patch with
      | none => rw [hparse] at h; exact absurd h (by simp)
      | some l =>
        rw [hparse] at h
        obtain rfl : ch ++ [(f.filename, l, c)] = ch' := Option.some.inj h
        have hnewfind : (pre ++ [(c, f)]).find? (qualifies patterns f.filename)
            = some (c, f) := by
          simp [List.find?_append, hfindpre, hq]
        have hprelen : pre.findIdx (qualifies patterns f.filename) = pre.length :=
          List.findIdx_eq_length_of_false
            (by simpa using List.find?_eq_none.mp hfindpre)
        have hnewidx : (pre ++ [(c, f)]).findIdx (qualifies patterns f.filename)
            = pre.length := by
          rw [List.findIdx_append, if_neg (by simp [hprelen])]
          simp [List.findIdx_cons, hq]
        refine ⟨?_, ?_, ?_, ?_⟩
        · rw [List.map_append]
          simp [List.nodup_append, inv.nodup, hkey]
        · intro e he
          rcases List.mem_append.mp he with hold | hnew
          · exact find?_stable inv _ hold
          · obtain rfl : e = (f.filename, l, c) := by simpa using hnew
            exact ⟨f, hnewfind, hparse⟩
        · intro fn hfn
          have hfn' : fn ∉ (ch ++ [(f.filename, l, c)]).map (fun e => e.1) :=
            (lookup_none_iff _ _).mp hfn
          rw [List.map_append] at hfn'
          simp only [List.mem_append, not_or] at hfn'
          have hne : f.filename ≠ fn := by
            intro hh
            exact hfn'.2 (by simp [hh])
          have hpre := inv.fresh fn ((lookup_none_iff _ _).mpr hfn'.1)
          simp [List.find?_append, hpre, qualifies_false_of_ne patterns hne]
        · rw [List.pairwise_append]
          refine ⟨inv.order.imp_of_mem (fun ha hb hr => by
              rwa [findIdx_stable inv _ ha, findIdx_stable inv _ hb]), by simp, ?_⟩
          intro a ha b hb
          obtain rfl : b = (f.filename, l, c) := by simpa using hb
          rw [findIdx_stable inv _ ha]
          have : pre.findIdx (qualifies patterns a.1) < pre.length := by
            obtain ⟨fa, hfa, _⟩ := inv.attrib a ha
            exact List.findIdx_lt_length_of_exists
              ⟨(a.2.2, fa), List.mem_of_find?_eq_some hfa, List.find?_some hfa⟩
          simpa [hnewidx] using this
    · rw [if_neg hguard] at h
      obtain rfl : ch = ch' := Option.some.inj h
      refine ⟨inv.nodup, fun e he => find?_stable inv _ he, ?_, ?_⟩
      · intro fn hfn
        have hpre := inv.fresh fn hfn
        have hqf : qualifies patterns fn (c, f) = false := by
          by_cases hne : f.filename = fn
          · subst hne
            have hnone : (ch.lookup f.filename).isNone = true := by
              simp [hfn]
            have hany : patterns.any (fun pat => fnmatch f.filename pat) = false := by
              cases hh : patterns.any (fun pat => fnmatch f.filename pat)
              · rfl
              · exact absurd (by simp [hh, hnone]) hguard
            unfold qualifies
            simp [hany]
          · exact qualifies_false_of_ne patterns hne
        simp [List.find?_append, hpre, hqf]
      · exact inv.order.imp_of_mem
          (fun ha hb hr => by rwa [findIdx_stable inv _ ha, findIdx_stable inv _ hb])

/-- The invariant survives the per-commit loop over `commit.files`. -/
lemma foldFiles_inv {patterns : List String} {c : Commit} :
    ∀ (files : List ChangedFile) {pre ch ch'},
      SelInv patterns pre ch →
      files.foldlM (stepFile patterns c) ch = some ch' →
      SelInv patterns (pre ++ files.map (fun f => (c, f))) ch'
  | [], pre, ch, ch', inv, h => by
    obtain rfl : ch = ch' := Option.some.inj h
    simpa using inv
  | f :: fs, pre, ch, ch', inv, h => by
    rw [List.foldlM_cons] at h
    cases hstep : stepFile patterns c ch f with
    | none => rw [hstep] at h; exact absurd h (by simp)
    | some ch1 =>
      rw [hstep] at h
      have inv1 := stepFile_inv inv hstep
      have := foldFiles_inv fs inv1 h
      simpa [List.append_assoc] using this

/-- The invariant survives the outer loop over the pull request's commits. -/
lemma foldCommits_inv {patterns : List String} :
    ∀ (commits : List Commit) {pre ch ch'},
      SelInv patterns pre ch →
      commits.foldlM (fun ch c => c.files.foldlM (stepFile patterns c) ch) ch
        = some ch' →
      SelInv patterns (pre ++ fileSeq commits) ch'
  | [], pre, ch, ch', inv, h => by
    obtain rfl : ch = ch' := Option.some.inj h
    simpa [fileSeq] using inv
  | c :: cs, pre, ch, ch', inv, h => by
    rw [List.foldlM_cons] at h
    cases hfold : c.files.foldlM (stepFile patterns c) ch with
    | none => rw [hfold] at h; exact absurd h (by simp)
    | some ch1 =>
      rw [hfold] at h
      have inv1 := foldFiles_inv c.files inv hfold
      have := foldCommits_inv cs inv1 h
      simpa [fileSeq, List.append_assoc] using this

/-- Every successful run of the Change Selector is the clamping projection of
an accumulated dict satisfying the selector invariant over the full
iteration sequence. -/
lemma files_for_review_inv {commits : List Commit} {patterns : List String}
    {out : List (String × Nat × Commit)}
    (h : files_for_review commits patterns = some out) :
    ∃ ch : Changes, SelInv patterns (fileSeq commits) ch
      ∧ out = ch.map (fun x => (x.1, max 1 x.2.1, x.2.2)) := by
  unfold files_for_review at h
  cases hfold : commits.foldlM
      (fun ch c => c.files.foldlM (stepFile patterns c) ch) ([] : Changes) with
  | none => rw [hfold] at h; exact absurd h (by simp)
  | some ch =>
    rw [hfold] at h
    have hbase : SelInv patterns [] ([] : Changes) :=
      ⟨by simp, by simp, fun fn _ => rfl, List.Pairwise.nil⟩
    refine ⟨ch, by simpa using foldCommits_inv commits hbase hfold, ?_⟩
    simpa using h.symm

/-- C1: in every successful run of the Change Selector, each filename occurs
at most once in the output, and each record is attributed to the first
(commit, file) pair, in the host's iteration order, whose entry for that
filename has a status other than `"unchanged"`/`"removed"` and matches some
supplied pattern; later matching changes are ignored. -/
theorem selector_dedup_first_commit_wins (commits : List Commit)
    (patterns : List String) (out : List (String × Nat × Commit))
    (h : files_for_review commits patterns = some out) :
    (out.map (fun e => e.1)).Nodup
      ∧ ∀ fn l c, (fn, l, c) ∈ out →
          ∃ f : ChangedFile,
            (fileSeq commits).find? (qualifies patterns fn) = some (c, f) := by
  obtain ⟨ch, inv, rfl⟩ := files_for_review_inv h
  constructor
  · simpa [List.map_map, Function.comp] using inv.nodup
  · intro fn l c hmem
    obtain ⟨e, he, heq⟩ := List.mem_map.mp hmem
    obtain ⟨h1, _, h3⟩ : e.1 = fn ∧ max 1 e.2.1 = l ∧ e.2.2 = c := by
      simpa [Prod.ext_iff] using heq
    obtain ⟨f, hf, _⟩ := inv.attrib e he
    exact ⟨f, by rwa [h1, h3] at hf⟩

/-- Witness for C1: `a.py` modified in two successive commits with pattern
`*.py` yields a single record attributed to the first commit. -/
theorem selector_dedup_first_commit_wins_witness :
    (([("a.py", 3, exCommitA)] : List (String × Nat × Commit)).map
        (fun e => e.1)).Nodup
      ∧ ∃ f : ChangedFile,
          (fileSeq [exCommitA, exCommitB]).find? (qualifies ["*.py"] "a.py")
            = some (exCommitA, f) :=
  ⟨(selector_dedup_first_commit_wins [exCommitA, exCommitB] ["*.py"]
      [("a.py", 3, exCommitA)] (by decide)).1,
   (selector_dedup_first_commit_wins [exCommitA, exCommitB] ["*.py"]
      [("a.py", 3, exCommitA)] (by decide)).2 "a.py" 3 exCommitA (by decide)⟩

/-- C4: no file entry with status `"removed"` or `"unchanged"` ever
contributes a record, even when its path matches a supplied pattern: every
record's attributing entry has some other status, and a filename all of
whose entries are removed/unchanged never appears in the output. -/
theorem selector_never_removed_unchanged (commits : List Commit)
    (patterns : List String) (out : List (String × Nat × Commit))
    (h : files_for_review commits patterns = some out) :
    (∀ fn l c, (fn, l, c) ∈ out →
        ∃ f : ChangedFile,
          (fileSeq commits).find? (qualifies patterns fn) = some (c, f)
            ∧ f.filename = fn ∧ f.status ≠ "removed" ∧ f.status ≠ "unchanged")
      ∧ ∀ fn, (∀ c ∈ commits, ∀ f ∈ c.files, f.filename = fn →
            f.status = "removed" ∨ f.status = "unchanged") →
          ∀ l c, (fn, l, c) ∉ out := by
  have hpart1 : ∀ fn l c, (fn, l, c) ∈ out →
      ∃ f : ChangedFile,
        (fileSeq commits).find? (qualifies patterns fn) = some (c, f)
          ∧ f.filename = fn ∧ f.status ≠ "removed" ∧ f.status ≠ "unchanged" := by
    intro fn l c hmem
    obtain ⟨ch, inv, rfl⟩ := files_for_review_inv h
    obtain ⟨e, he, heq⟩ := List.mem_map.mp hmem
    obtain ⟨h1, _, h3⟩ : e.1 = fn ∧ max 1 e.2.1 = l ∧ e.2.2 = c := by
      simpa [Prod.ext_iff] using heq
    obtain ⟨f, hf, _⟩ := inv.attrib e he
    have hqual := List.find?_some hf
    unfold qualifies at hqual
    simp only [Bool.and_eq_true, beq_iff_eq, Bool.not_eq_eq_eq_not, Bool.not_true,
      Bool.or_eq_false_iff, beq_eq_false_iff_ne, ne_eq] at hqual
    obtain ⟨⟨hname, hst1, hst2⟩, _⟩ := hqual
    exact ⟨f, by rwa [h1, h3] at hf, by rwa [h1] at hname, hst2, hst1⟩
  refine ⟨hpart1, ?_⟩
  intro fn hall l c hmem
  obtain ⟨f, hf, hname, hst1, hst2⟩ := hpart1 fn l c hmem
  have hmemseq := List.mem_of_find?_eq_some hf
  obtain ⟨hcc, hcf⟩ : c ∈ commits ∧ f ∈ c.files := by
    simpa [fileSeq] using hmemseq
  rcases hall c hcc f hcf hname with hrm | hun
  · exact hst1 hrm
  · exact hst2 hun

/-- Witness for C4: a removed `a.py` matching `*.py` produces no record. -/
theorem selector_never_removed_unchanged_witness :
    ("a.py", 1, exCommitRm) ∉ ([] : List (String × Nat × Commit)) :=
  (selector_never_removed_unchanged [exCommitRm] ["*.py"] [] (by decide)).2
    "a.py" (by decide) 1 exCommitRm

/-- C5: every record's line is the attributing entry's parsed hunk-header
value clamped to a minimum of 1: the output line is `max 1 p` for the parsed
`p`, so a parsed 0 becomes 1, any parsed value ≥ 1 is unchanged, and every
output line is ≥ 1. -/
theorem selector_clamps_line (commits : List Commit) (patterns : List String)
    (out : List (String × Nat × Commit))
    (h : files_for_review commits patterns = some out) :
    ∀ fn l c, (fn, l, c) ∈ out →
      1 ≤ l ∧ ∃ (f : ChangedFile) (p : Nat),
        (fileSeq commits).find? (qualifies patterns fn) = some (c, f)
          ∧ line_start_patch f.patch = some p
          ∧ l = max 1 p ∧ (p = 0 → l = 1) ∧ (1 ≤ p → l = p) := by
  intro fn l c hmem
  obtain ⟨ch, inv, rfl⟩ := files_for_review_inv h
  obtain ⟨e, he, heq⟩ := List.mem_map.mp hmem
  obtain ⟨h1, h2, h3⟩ : e.1 = fn ∧ max 1 e.2.1 = l ∧ e.2.2 = c := by
    simpa [Prod.ext_iff] using heq
  obtain ⟨f, hf, hl⟩ := inv.attrib e he
  refine ⟨by omega, f, e.2.1, by rwa [h1, h3] at hf, hl, by omega, by omega, by omega⟩

/-- Witness for C5: the added `app.ts` with hunk header `@@ -0,0 +1,10 @@`
(parsed line 0) is clamped to line 1. -/
theorem selector_clamps_line_witness :
    1 ≤ 1 ∧ ∃ (f : ChangedFile) (p : Nat),
      (fileSeq [exCommitTs]).find? (qualifies ["*.ts"] "app.ts")
        = some (exCommitTs, f)
        ∧ line_start_patch f.patch = some p
        ∧ 1 = max 1 p ∧ (p = 0 → 1 = 1) ∧ (1 ≤ p → 1 = p) :=
  selector_clamps_line [exCommitTs] ["*.ts"] [("app.ts", 1, exCommitTs)]
    (by decide) "app.ts" 1 exCommitTs (by decide)

/-- C10: the Change Selector is deterministic (two runs over the same
commits and patterns return the same sequence) and order-preserving: the
records appear in the order of the first qualifying (commit, file) pair of
their filenames in the iteration sequence (insertion order of the
accumulating dict). -/
theorem selector_deterministic_and_ordered (commits : List Commit)
    (patterns : List String) (out₁ out₂ : List (String × Nat × Commit))
    (h₁ : files_for_review commits patterns = some out₁)
    (h₂ : files_for_review commits patterns = some out₂) :
    out₁ = out₂
      ∧ out₁.Pairwise (fun a b =>
          (fileSeq commits).findIdx (qualifies patterns a.1)
            < (fileSeq commits).findIdx (qualifies patterns b.1)) := by
  refine ⟨Option.some.inj (h₁.symm.trans h₂), ?_⟩
  obtain ⟨ch, inv, rfl⟩ := files_for_review_inv h₁
  rw [List.pairwise_map]
  exact inv.order

/-- Witness for C10: one commit touching `a.py` then `b.py`; the two runs
agree and the records are ordered by first-touch position. -/
theorem selector_deterministic_and_ordered_witness :
    ([("a.py", 3, exCommitTwo), ("b.py", 5, exCommitTwo)]
        : List (String × Nat × Commit))
      = [("a.py", 3, exCommitTwo), ("b.py", 5, exCommitTwo)]
      ∧ ([("a.py", 3, exCommitTwo), ("b.py", 5, exCommitTwo)]
          : List (String × Nat × Commit)).Pairwise (fun a b =>
            (fileSeq [exCommitTwo]).findIdx (qualifies ["*.py"] a.1)
              < (fileSeq [exCommitTwo]).findIdx (qualifies ["*.py"] b.1)) :=
  selector_deterministic_and_ordered [exCommitTwo] ["*.py"]
    [("a.py", 3, exCommitTwo), ("b.py", 5, exCommitTwo)]
    [("a.py", 3, exCommitTwo), ("b.py", 5, exCommitTwo)]
    (by decide) (by decide)

/-! ### Orchestrator lemmas -/

/-- The comment-building fold, with an arbitrary starting accumulator, is
the filterMap of per-record comments paired with the flatMap of per-record
events. -/
lemma gather_foldl_eq (contents : String → String → String)
    (chat : String → String) :
    ∀ (records : List (String × Nat × Commit))
      (acc : List ReviewCmt × List MainEvent),
      records.foldl
        (fun acc r =>
          let content := contents r.1 r.2.2.sha
          if content.length = 0 then
            (acc.1, acc.2 ++ [MainEvent.fetchContent r.1 r.2.2.sha])
          else
            (acc.1 ++ [⟨r.1, r.2.1, review r.1 content chat⟩],
             acc.2 ++ [MainEvent.fetchContent r.1 r.2.2.sha,
                       MainEvent.chatCall r.1 (prompt r.1 content)]))
        acc
      = (acc.1 ++ records.filterMap (commentFor contents chat),
         acc.2 ++ records.flatMap (eventsFor contents chat))
  | [], acc => by simp
  | r :: rs, acc => by
    rw [List.foldl_cons, gather_foldl_eq contents chat rs]
    by_cases hc : (contents r.1 r.2.2.sha).length = 0
    · simp [commentFor, eventsFor, hc, List.filterMap_cons, List.flatMap_cons,
        List.append_assoc]
    · simp [commentFor, eventsFor, hc, List.filterMap_cons, List.flatMap_cons,
        List.append_assoc]

/-- The comment-building loop characterised record by record. -/
lemma gather_eq (contents : String → String → String) (chat : String → String)
    (records : List (String × Nat × Commit)) :
    gather contents chat records
      = (records.filterMap (commentFor contents chat),
         records.flatMap (eventsFor contents chat)) := by
  unfold gather
  simpa using gather_foldl_eq contents chat records ([], [])

/-- The comment-building loop only fetches content and calls the completion
service; it neither handles replies nor creates reviews. -/
lemma gather_events_shape (contents : String → String → String)
    (chat : String → String) (records : List (String × Nat × Commit)) :
    ∀ ev ∈ (gather contents chat records).2,
      (∃ p s, ev = MainEvent.fetchContent p s)
        ∨ ∃ p pr, ev = MainEvent.chatCall p pr := by
  rw [gather_eq]
  intro ev hev
  obtain ⟨r, _, hin⟩ := List.mem_flatMap.mp hev
  unfold eventsFor at hin
  by_cases hc : (contents r.1 r.2.2.sha).length = 0
  · rw [if_pos hc] at hin
    exact Or.inl ⟨r.1, r.2.2.sha, List.mem_singleton.mp hin⟩
  · rw [if_neg hc] at hin
    rcases List.mem_cons.mp hin with h1 | h1
    · exact Or.inl ⟨r.1, r.2.2.sha, h1⟩
    · exact Or.inr ⟨r.1, prompt r.1 (contents r.1 r.2.2.sha),
        List.mem_singleton.mp h1⟩

/-- C7: a selected file whose fetched content is empty is silently skipped:
no review comment is built for it, no completion call is issued for it, and
the run does not fail because of it. -/
theorem orchestrator_skips_empty_file (contents : String → String → String)
    (chat : String → String) (commits : List Commit) (patterns : List String)
    (records : List (String × Nat × Commit)) (fn : String) (l : Nat) (c : Commit)
    (hsel : files_for_review commits patterns = some records)
    (hmem : (fn, l, c) ∈ records)
    (hempty : contents fn c.sha = "") :
    (∀ cm ∈ (gather contents chat records).1, cm.path ≠ fn)
      ∧ (∀ p pr, MainEvent.chatCall p pr ∈ (gather contents chat records).2 → p ≠ fn)
      ∧ main_run contents chat commits patterns ≠ none := by
  have hnodup : (records.map (fun e => e.1)).Nodup := by
    obtain ⟨ch, inv, rfl⟩ := files_for_review_inv hsel
    simpa [List.map_map, Function.comp] using inv.nodup
  have hinj := List.inj_on_of_nodup_map hnodup
  have hsame : ∀ r ∈ records, r.1 = fn → r = (fn, l, c) := by
    intro r hrmem hr1
    exact hinj hrmem hmem (by simpa using hr1)
  have hlen : ∀ r ∈ records, r.1 = fn → (contents r.1 r.2.2.sha).length = 0 := by
    intro r hrmem hr1
    obtain rfl := hsame r hrmem hr1
    simp [hempty]
  refine ⟨?_, ?_, ?_⟩
  · rw [gather_eq]
    intro cm hcm hpath
    obtain ⟨r, hrmem, hr⟩ := List.mem_filterMap.mp hcm
    unfold commentFor at hr
    by_cases hc : (contents r.1 r.2.2.sha).length = 0
    · rw [if_pos hc] at hr
      exact absurd hr (by simp)
    · rw [if_neg hc] at hr
      have : cm.path = r.1 := by
        obtain rfl := Option.some.inj hr
        rfl
      exact hc (hlen r hrmem (by rw [← this, hpath]))
  · rw [gather_eq]
    intro p pr hev hp
    obtain ⟨r, hrmem, hin⟩ := List.mem_flatMap.mp hev
    unfold eventsFor at hin
    by_cases hc : (contents r.1 r.2.2.sha).length = 0
    · rw [if_pos hc] at hin
      simp at hin
    · rw [if_neg hc] at hin
      have hpr : p = r.1 := by
        rcases List.mem_cons.mp hin with h1 | h1
        · exact absurd h1 (by simp)
        · have h2 := List.mem_singleton.mp h1
          have h3 : p = r.1 ∧ pr = prompt r.1 (contents r.1 r.2.2.sha) := by
            simpa using h2
          exact h3.1
      exact hc (hlen r hrmem (by rw [← hpr, hp]))
  · unfold main_run
    rw [hsel]
    simp only [Option.bind_eq_bind, Option.some_bind]
    split <;> simp

/-- Witness for C7: with an empty content store, the selected `a.py` yields
no comment and no completion call, and the run still succeeds. -/
theorem orchestrator_skips_empty_file_witness :
    (∀ cm ∈ (gather exContentsEmpty exChat [("a.py", 3, exCommitA)]).1,
        cm.path ≠ "a.py")
      ∧ (∀ p pr,
          MainEvent.chatCall p pr
              ∈ (gather exContentsEmpty exChat [("a.py", 3, exCommitA)]).2 →
            p ≠ "a.py")
      ∧ main_run exContentsEmpty exChat [exCommitA] ["*.py"] ≠ none :=
  orchestrator_skips_empty_file exContentsEmpty exChat [exCommitA] ["*.py"]
    [("a.py", 3, exCommitA)] "a.py" 3 exCommitA (by decide) (by decide) rfl

/-- C9: in every run of the orchestrator, if at least one review comment was
produced, the reply handler runs first and only afterwards are all comments
submitted as one review with the fixed title `**ChatGPT code review**` and
the non-blocking `COMMENT` event (and neither happens earlier in the trace);
if no comment was produced, the trace contains no reply handling and no
review creation at all. -/
theorem orchestrator_replies_then_single_review
    (contents : String → String → String) (chat : String → String)
    (commits : List Commit) (patterns : List String)
    (records : List (String × Nat × Commit)) (trace : List MainEvent)
    (hsel : files_for_review commits patterns = some records)
    (hrun : main_run contents chat commits patterns = some trace) :
    ((gather contents chat records).1 ≠ [] →
        trace = (gather contents chat records).2
            ++ [MainEvent.replyHandling,
                MainEvent.createReview "**ChatGPT code review**" "COMMENT"
                  (gather contents chat records).1]
          ∧ MainEvent.replyHandling ∉ (gather contents chat records).2
          ∧ ∀ b e cms, MainEvent.createReview b e cms
              ∉ (gather contents chat records).2)
      ∧ ((gather contents chat records).1 = [] →
          MainEvent.replyHandling ∉ trace
            ∧ ∀ b e cms, MainEvent.createReview b e cms ∉ trace) := by
  have hshape := gather_events_shape contents chat records
  have hnoreply : MainEvent.replyHandling ∉ (gather contents chat records).2 := by
    intro hmem
    rcases hshape _ hmem with ⟨p, s, h⟩ | ⟨p, pr, h⟩ <;> exact absurd h (by simp)
  have hnoreview : ∀ b e cms,
      MainEvent.createReview b e cms ∉ (gather contents chat records).2 := by
    intro b e cms hmem
    rcases hshape _ hmem with ⟨p, s, h⟩ | ⟨p, pr, h⟩ <;> exact absurd h (by simp)
  unfold main_run at hrun
  rw [hsel] at hrun
  simp only [Option.bind_eq_bind, Option.some_bind] at hrun
  by_cases hne : (gather contents chat records).1 = []
  · rw [if_neg (by simp [hne])] at hrun
    obtain rfl : (gather contents chat records).2 = trace := Option.some.inj hrun
    exact ⟨fun h => absurd hne h, fun _ => ⟨hnoreply, hnoreview⟩⟩
  · rw [if_pos (by simpa [List.length_pos] using hne)] at hrun
    obtain rfl := (Option.some.inj hrun).symm
    refine ⟨fun _ => ⟨rfl, hnoreply, hnoreview⟩, fun h => absurd h hne⟩

/-- Witness for C9: a run over `exCommitA` that produces one comment ends
with reply handling followed by the single review submission. -/
theorem orchestrator_replies_then_single_review_witness :
    exTrace = (gather exContents exChat [("a.py", 3, exCommitA)]).2
        ++ [MainEvent.replyHandling,
            MainEvent.createReview "**ChatGPT code review**" "COMMENT"
              (gather exContents exChat [("a.py", 3, exCommitA)]).1]
      ∧ MainEvent.replyHandling
          ∉ (gather exContents exChat [("a.py", 3, exCommitA)]).2
      ∧ ∀ b e cms, MainEvent.createReview b e cms
          ∉ (gather exContents exChat [("a.py", 3, exCommitA)]).2 :=
  (orchestrator_replies_then_single_review exContents exChat [exCommitA]
      ["*.py"] [("a.py", 3, exCommitA)] exTrace (by decide) rfl).1
    (by decide)

/-! ### Reply Handler lemmas -/

/-- The handler's inner loop over the human replies to one bot comment,
with an arbitrary starting accumulator: it appends one call and one post per
not-yet-handled reply, in order. -/
lemma replies_foldl_eq (completion : String → String)
    (comments : List IssueCmt) :
    ∀ (rs : List IssueCmt) (acc : List (Nat × String) × List (Nat × String)),
      rs.foldl
        (fun acc r =>
          if !(comments.filter
              (fun br => br.reply_to_id == some r.id && br.login == botLogin)).isEmpty
          then acc
          else (acc.1 ++ [(r.id, replyPrompt r)],
                acc.2 ++ [(r.id, completion (replyPrompt r))]))
        acc
      = (acc.1 ++ (rs.filter (unhandled comments)).map
            (fun r => (r.id, replyPrompt r)),
         acc.2 ++ (rs.filter (unhandled comments)).map
            (fun r => (r.id, completion (replyPrompt r))))
  | [], acc => by simp
  | r :: rs, acc => by
    rw [List.foldl_cons, replies_foldl_eq completion comments rs]
    by_cases hu : unhandled comments r = true
    · have : (!(comments.filter
          (fun br => br.reply_to_id == some r.id && br.login == botLogin)).isEmpty)
          = false := by
        unfold unhandled at hu
        simp [hu]
      simp [this, List.filter_cons, hu, List.append_assoc]
    · have : (!(comments.filter
          (fun br => br.reply_to_id == some r.id && br.login == botLogin)).isEmpty)
          = true := by
        unfold unhandled at hu
        simp at hu
        simp [hu]
      simp [this, List.filter_cons, hu]

/-- The handler's outer loop over all comments, with an arbitrary starting
accumulator: bot-authored comments contribute their not-yet-handled human
replies in order, other comments contribute nothing. -/
lemma handler_foldl_eq (completion : String → String) (comments : List IssueCmt) :
    ∀ (cs : List IssueCmt) (acc : List (Nat × String) × List (Nat × String)),
      cs.foldl
        (fun acc c =>
          if c.login == botLogin then
            (comments.filter
                (fun r => r.reply_to_id == some c.id && !(r.login == botLogin))).foldl
              (fun acc r =>
                if !(comments.filter
                    (fun br => br.reply_to_id == some r.id
                      && br.login == botLogin)).isEmpty
                then acc
                else (acc.1 ++ [(r.id, replyPrompt r)],
                      acc.2 ++ [(r.id, completion (replyPrompt r))]))
              acc
          else acc)
        acc
      = (acc.1 ++ ((cs.filter (fun x => x.login == botLogin)).flatMap
            (fun c => (comments.filter
                (fun r => r.reply_to_id == some c.id
                  && !(r.login == botLogin))).filter
              (unhandled comments))).map (fun r => (r.id, replyPrompt r)),
         acc.2 ++ ((cs.filter (fun x => x.login == botLogin)).flatMap
            (fun c => (comments.filter
                (fun r => r.reply_to_id == some c.id
                  && !(r.login == botLogin))).filter
              (unhandled comments))).map
            (fun r => (r.id, completion (replyPrompt r))))
  | [], acc => by simp
  | c :: cs, acc => by
    rw [List.foldl_cons]
    by_cases hbot : (c.login == botLogin) = true
    · rw [if_pos hbot, replies_foldl_eq completion comments _ acc,
        handler_foldl_eq completion comments cs _]
      simp [List.filter_cons, hbot, List.flatMap_cons, List.append_assoc]
    · rw [if_neg (by simpa using hbot),
        handler_foldl_eq completion comments cs acc]
      simp [List.filter_cons, hbot]

/-- The Reply Handler characterised reply by reply: its calls and posts are
the per-reply call and post over `workList comments`, in order. -/
lemma handle_replies_eq (completion : String → String)
    (comments : List IssueCmt) :
    handle_replies completion comments
      = ((workList comments).map (fun r => (r.id, replyPrompt r)),
         (workList comments).map (fun r => (r.id, completion (replyPrompt r)))) := by
  unfold handle_replies
  rw [handler_foldl_eq completion comments comments ([], [])]
  unfold workList
  rw [List.filter_flatMap]
  simp only [List.nil_append]
  rfl

/-- Filtering a duplicate-free list with a predicate that can only accept
`r` returns `[r]` or `[]` according to whether `r` passes. -/
lemma filter_eq_single_of_nodup {α : Type _} (q : α → Bool) :
    ∀ {l : List α} {r : α}, l.Nodup → r ∈ l →
      (∀ x ∈ l, q x = true → x = r) →
      l.filter q = if q r = true then [r] else []
  | [], r, _, hr, _ => absurd hr (List.not_mem_nil r)
  | x :: xs, r, hn, hr, honly => by
    rcases List.mem_cons.mp hr with h | h
    · subst h
      have hxs : xs.filter q = [] := by
        rw [List.filter_eq_nil_iff]
        intro a ha hqa
        have := honly a (List.mem_cons_of_mem _ ha) hqa
        subst this
        exact (List.nodup_cons.mp hn).1 ha
      rw [List.filter_cons, hxs]
    · have hx_ne : x ≠ r := fun hh => (List.nodup_cons.mp hn).1 (hh ▸ h)
      have hqx : q x = false := by
        cases hqx : q x with
        | false => rfl
        | true => exact absurd (honly x (List.mem_cons_self x xs) hqx) hx_ne
      rw [List.filter_cons, if_neg (by simp [hqx])]
      exact filter_eq_single_of_nodup q (List.nodup_cons.mp hn).2 h
        (fun a ha => honly a (List.mem_cons_of_mem _ ha))

/-- A flatMap over a duplicate-free list whose function vanishes everywhere
except at the member `c` reduces to `f c`. -/
lemma flatMap_eq_of_single {α β : Type _} (f : α → List β) :
    ∀ {l : List α} {c : α}, l.Nodup → c ∈ l →
      (∀ x ∈ l, x ≠ c → f x = []) →
      l.flatMap f = f c
  | [], c, _, hc, _ => absurd hc (List.not_mem_nil c)
  | x :: xs, c, hn, hc, hothers => by
    rw [List.flatMap_cons]
    rcases List.mem_cons.mp hc with h | h
    · subst h
      have hxs : xs.flatMap f = [] := by
        rw [List.flatMap_eq_nil_iff]
        intro y hy
        exact hothers y (List.mem_cons_of_mem _ hy)
          (fun hyc => (List.nodup_cons.mp hn).1 (hyc ▸ hy))
      rw [hxs, List.append_nil]
    · have hxc : x ≠ c := fun hh => (List.nodup_cons.mp hn).1 (hh ▸ h)
      rw [hothers x (List.mem_cons_self x xs) hxc, List.nil_append]
      exact flatMap_eq_of_single f (List.nodup_cons.mp hn).2 h
        (fun y hy => hothers y (List.mem_cons_of_mem _ hy))

/-- Restriction of the handler's work list to the id of the human reply `r`
(a reply to the bot comment `c`): it is exactly `[r]` when `r` has no bot
answer yet, and `[]` when it has one. -/
lemma workList_filter_id (comments : List IssueCmt) (c r : IssueCmt)
    (hnodup : (comments.map (fun x => x.id)).Nodup)
    (hc : c ∈ comments) (hcbot : c.login = botLogin)
    (hr : r ∈ comments) (hrt : r.reply_to_id = some c.id)
    (hrh : r.login ≠ botLogin) :
    (workList comments).filter (fun x => x.id == r.id)
      = if unhandled comments r = true then [r] else [] := by
  have hcn : comments.Nodup := List.Nodup.of_map _ hnodup
  have hinj : ∀ x ∈ comments, ∀ y ∈ comments, x.id = y.id → x = y :=
    fun x hx y hy => List.inj_on_of_nodup_map hnodup hx hy
  unfold workList
  rw [List.filter_filter, List.filter_flatMap]
  have hbotmem : c ∈ comments.filter (fun x => x.login == botLogin) :=
    List.mem_filter.mpr ⟨hc, by simp [hcbot]⟩
  have hsingle := flatMap_eq_of_single
    (fun c' => (comments.filter (humanReplyTo c')).filter
      (fun a => a.id == r.id && unhandled comments a))
    ((List.Nodup.filter _ hcn)) hbotmem
    (fun c' hc' hne => by
      simp only [List.filter_filter, List.filter_eq_nil_iff]
      intro a ha hpa
      simp only [Bool.and_eq_true, beq_iff_eq] at hpa
      obtain ⟨⟨haid, _⟩, hhuman⟩ := hpa
      obtain rfl : a = r := hinj a ha r hr haid
      unfold humanReplyTo at hhuman
      simp only [Bool.and_eq_true, beq_iff_eq] at hhuman
      have hcid : c.id = c'.id := by
        have := hhuman.1
        rw [hrt] at this
        exact Option.some.inj this
      exact hne (hinj c' (List.mem_of_mem_filter hc') c hc hcid.symm))
  rw [hsingle]
  simp only [List.filter_filter]
  have honly : ∀ x ∈ comments,
      ((x.id == r.id && unhandled comments x) && humanReplyTo c x) = true
        → x = r := by
    intro x hx hq
    simp only [Bool.and_eq_true, beq_iff_eq] at hq
    exact hinj x hx r hr hq.1.1
  rw [filter_eq_single_of_nodup _ hcn hr honly]
  have hqr : ((r.id == r.id && unhandled comments r) && humanReplyTo c r)
      = unhandled comments r := by
    unfold humanReplyTo
    have h1 : (r.reply_to_id == some c.id) = true := by simp [hrt]
    have h2 : (r.login == botLogin) = false := by
      simpa using hrh
    simp [h1, h2]
  rw [hqr]

/-- C8: for a bot-authored comment `c` with a human reply `r` (comment ids
pairwise distinct): if no bot-authored reply to `r` exists, the Reply
Handler issues exactly one completion call for `r` and posts exactly one
reply to it; if a bot-authored reply to `r` already exists, it issues no
completion call and posts nothing for `r`. -/
theorem reply_handler_answers_once (completion : String → String)
    (comments : List IssueCmt) (c r : IssueCmt)
    (hnodup : (comments.map (fun x => x.id)).Nodup)
    (hc : c ∈ comments) (hcbot : c.login = botLogin)
    (hr : r ∈ comments) (hrt : r.reply_to_id = some c.id)
    (hrh : r.login ≠ botLogin) :
    ((∀ br ∈ comments, ¬(br.reply_to_id = some r.id ∧ br.login = botLogin)) →
        (handle_replies completion comments).1.filter (fun p => p.1 == r.id)
            = [(r.id, replyPrompt r)]
          ∧ (handle_replies completion comments).2.filter (fun p => p.1 == r.id)
            = [(r.id, completion (replyPrompt r))])
      ∧ ((∃ br ∈ comments, br.reply_to_id = some r.id ∧ br.login = botLogin) →
          (handle_replies completion comments).1.filter (fun p => p.1 == r.id)
              = []
            ∧ (handle_replies completion comments).2.filter (fun p => p.1 == r.id)
              = []) := by
  have hw := workList_filter_id comments c r hnodup hc hcbot hr hrt hrh
  rw [handle_replies_eq]
  have hfilter1 : ((workList comments).map
        (fun x => (x.id, replyPrompt x))).filter (fun p => p.1 == r.id)
      = ((workList comments).filter (fun x => x.id == r.id)).map
          (fun x => (x.id, replyPrompt x)) := by
    rw [List.filter_map]
    rfl
  have hfilter2 : ((workList comments).map
        (fun x => (x.id, completion (replyPrompt x)))).filter
          (fun p => p.1 == r.id)
      = ((workList comments).filter (fun x => x.id == r.id)).map
          (fun x => (x.id, completion (replyPrompt x))) := by
    rw [List.filter_map]
    rfl
  constructor
  · intro hA
    have hunh : unhandled comments r = true := by
      unfold unhandled
      rw [List.isEmpty_eq_true, List.filter_eq_nil_iff]
      intro a ha hpa
      simp only [Bool.and_eq_true, beq_iff_eq] at hpa
      exact hA a ha hpa
    constructor
    · rw [hfilter1, hw, if_pos hunh]
      rfl
    · rw [hfilter2, hw, if_pos hunh]
      rfl
  · intro hB
    obtain ⟨br, hbr, hbrt, hbrl⟩ := hB
    have hunh : unhandled comments r = false := by
      unfold unhandled
      rw [List.isEmpty_eq_false]
      intro hnil
      have hmem : br ∈ comments.filter
          (fun x => x.reply_to_id == some r.id && x.login == botLogin) :=
        List.mem_filter.mpr ⟨hbr, by simp [hbrt, hbrl]⟩
      rw [hnil] at hmem
      exact List.not_mem_nil br hmem
    constructor
    · rw [hfilter1, hw, if_neg (by simp [hunh])]
      rfl
    · rw [hfilter2, hw, if_neg (by simp [hunh])]
      rfl

/-- Witness for C8: with comments `[exBotComment, exHumanReply]` the handler
posts exactly one answer to the human reply (id 2); adding the existing bot
answer `exBotReply` makes it post nothing for that reply. -/
theorem reply_handler_answers_once_witness :
    ((handle_replies exCompletion [exBotComment, exHumanReply]).2.filter
          (fun p => p.1 == 2)
        = [(2, exCompletion (replyPrompt exHumanReply))])
      ∧ ((handle_replies exCompletion
            [exBotComment, exHumanReply, exBotReply]).2.filter
          (fun p => p.1 == 2)
        = []) :=
  ⟨((reply_handler_answers_once exCompletion [exBotComment, exHumanReply]
        exBotComment exHumanReply (by decide) (by decide) (by decide)
        (by decide) (by decide) (by decide)).1 (by decide)).2,
   ((reply_handler_answers_once exCompletion
        [exBotComment, exHumanReply, exBotReply]
        exBotComment exHumanReply (by decide) (by decide) (by decide)
        (by decide) (by decide) (by decide)).2
      ⟨exBotReply, by decide, by decide, by decide⟩).2⟩

end PrReview
